import Mathlib

/-!
Verification of the pdf-paycheck extraction service (src/main.py) against its
natural-language specification.  Text is modelled as `List Char` (a Python
string is a sequence of Unicode code points), grayscale raster images as
`List (List Nat)` of 0..255 intensities, and the external collaborators
(rasterizer, OCR engine, the cv2 denoiser) as function parameters.
-/

namespace ParsePdfSpec

/-- Characters of the whitespace class used by the substitution patterns of
`_correct_text` (the ASCII whitespace characters; the Python class also covers
further Unicode whitespace, which no replacement text produces and which no
claim below depends on). -/
def wsChar (c : Char) : Bool :=
  c == ' ' || c == '\t' || c == '\n' || c == '\r' || c == '\x0b' || c == '\x0c'

/-- Decimal digit characters, modelling the digit class of the date pattern. -/
def isDigitCh (c : Char) : Bool := '0' ≤ c && c ≤ '9'

/-- The literal word GOVERNO from the first pattern. -/
def GOV : List Char := ['G', 'O', 'V', 'E', 'R', 'N', 'O']

/-- The literal word ESTAD from the first pattern. -/
def ESTAD : List Char := ['E', 'S', 'T', 'A', 'D']

/-- Replacement text of the first substitution rule: GOVERNO DO ESTADO. -/
def r1repl : List Char := GOV ++ ' ' :: 'D' :: 'O' :: ' ' :: (ESTAD ++ ['O'])

/-- The accented spelling MATRÍCULA (pattern alternative and replacement of
the second substitution rule). -/
def matAcc : List Char := ['M', 'A', 'T', 'R', 'Í', 'C', 'U', 'L', 'A']

/-- The plain spelling MATRICULA (the other alternative of the second rule). -/
def matPlain : List Char := ['M', 'A', 'T', 'R', 'I', 'C', 'U', 'L', 'A']

/-- The corrupted spelling Contraçheque (pattern alternative of the fourth
substitution rule). -/
def ctrDirty : List Char := ['C', 'o', 'n', 't', 'r', 'a', 'ç', 'h', 'e', 'q', 'u', 'e']

/-- The clean spelling Contracheque (alternative and replacement of the
fourth substitution rule). -/
def ctrClean : List Char := ['C', 'o', 'n', 't', 'r', 'a', 'c', 'h', 'e', 'q', 'u', 'e']

/-- Match a literal character sequence at the head of the input, returning
the rest on success. -/
def litM : List Char → List Char → Option (List Char)
  | [], l => some l
  | _ :: _, [] => none
  | p :: ps, c :: cs => if c = p then litM ps cs else none

/-- Matcher for the first pattern of `_correct_text`, the regular expression
on line 177 of src/main.py (GOVERNO, whitespace, DE or DO, whitespace,
ESTADO or ESTADA).  On success it returns how many characters the match
consumed together with the replacement text GOVERNO DO ESTADO.  The greedy
one-or-more whitespace is the maximal whitespace run, as the pattern
characters that follow it are never whitespace. -/
def m1 (l : List Char) : Option (Nat × List Char) :=
  match litM GOV l with
  | none => none
  | some l1 =>
    let w1 := l1.takeWhile wsChar
    if w1 = [] then none
    else
      match l1.drop w1.length with
      | d :: x :: l3 =>
        if d = 'D' ∧ (x = 'E' ∨ x = 'O') then
          let w2 := l3.takeWhile wsChar
          if w2 = [] then none
          else
            match litM ESTAD (l3.drop w2.length) with
            | none => none
            | some l5 =>
              match l5 with
              | y :: _ =>
                if y = 'O' ∨ y = 'A' then
                  some (15 + w1.length + w2.length, r1repl)
                else none
              | [] => none
        else none
      | _ => none

/-- Matcher for the second pattern (line 178 of src/main.py): the nine
character alternatives MATRÍCULA and MATRICULA, rewritten to MATRÍCULA. -/
def m2 (l : List Char) : Option (Nat × List Char) :=
  if l.take 9 = matAcc ∨ l.take 9 = matPlain then some (9, matAcc) else none

/-- Matcher for the third pattern (line 179 of src/main.py): two digits, a
slash, four digits, rewritten to the captured digits around a slash — the
replacement reproduces exactly the matched text. -/
def m3 (l : List Char) : Option (Nat × List Char) :=
  match l with
  | a :: b :: s :: c :: d :: e :: f :: _ =>
    if isDigitCh a && isDigitCh b && (s = '/') && isDigitCh c && isDigitCh d
        && isDigitCh e && isDigitCh f then
      some (7, [a, b, '/', c, d, e, f])
    else none
  | _ => none

/-- Matcher for the fourth pattern (line 180 of src/main.py): the twelve
character alternatives Contraçheque and Contracheque, rewritten to
Contracheque. -/
def m4 (l : List Char) : Option (Nat × List Char) :=
  if l.take 12 = ctrDirty ∨ l.take 12 = ctrClean then some (12, ctrClean) else none

/-- One full pass of `re.sub` for a fixed pattern, with explicit fuel so
that the scan stays structurally recursive (the fuel is always at least the
input length, which suffices because matches are nonempty): scan left to
right; at a matching position emit the replacement and continue after the
consumed characters, otherwise keep the character and advance one
position. -/
def subAllF (m : List Char → Option (Nat × List Char)) : Nat → List Char → List Char
  | _, [] => []
  | 0, _ :: _ => []
  | f + 1, c :: cs =>
    match m (c :: cs) with
    | none => c :: subAllF m f cs
    | some (n, ρ) => ρ ++ subAllF m f (List.drop n (c :: cs))

/-- One full pass of `re.sub` for a fixed pattern over the whole input. -/
def subAll (m : List Char → Option (Nat × List Char)) (l : List Char) : List Char :=
  subAllF m l.length l

theorem subAllF_congr (m : List Char → Option (Nat × List Char))
    (hm : ∀ l n ρ, m l = some (n, ρ) → 1 ≤ n) :
    ∀ f f' l, l.length ≤ f → l.length ≤ f' → subAllF m f l = subAllF m f' l := by
  intro f
  induction f with
  | zero =>
    intro f' l hf _
    have : l = [] := List.eq_nil_of_length_eq_zero (by omega)
    subst this
    cases f' <;> rfl
  | succ f ih =>
    intro f' l hf hf'
    cases l with
    | nil => cases f' <;> rfl
    | cons c cs =>
      cases f' with
      | zero => simp at hf'
      | succ f'' =>
        show subAllF m (f + 1) (c :: cs) = subAllF m (f'' + 1) (c :: cs)
        unfold subAllF
        cases hmc : m (c :: cs) with
        | none =>
          simp only
          rw [ih f'' cs (by simp at hf; omega) (by simp at hf'; omega)]
        | some p =>
          obtain ⟨n, ρ⟩ := p
          have hn := hm _ _ _ hmc
          simp only
          rw [ih f'' (List.drop n (c :: cs))
            (by simp only [List.length_drop, List.length_cons] at hf ⊢; omega)
            (by simp only [List.length_drop, List.length_cons] at hf' ⊢; omega)]

theorem subAll_nil (m) : subAll m [] = [] := rfl

theorem subAll_pos (m) (hm : ∀ l n ρ, m l = some (n, ρ) → 1 ≤ n)
    (c : Char) (cs : List Char) (n : Nat) (ρ : List Char)
    (h : m (c :: cs) = some (n, ρ)) :
    subAll m (c :: cs) = ρ ++ subAll m (List.drop n (c :: cs)) := by
  have hn := hm _ _ _ h
  show subAllF m (c :: cs).length (c :: cs) = _
  rw [show (c :: cs).length = cs.length + 1 from rfl]
  unfold subAllF
  rw [h]
  simp only
  rw [subAllF_congr m hm cs.length (List.drop n (c :: cs)).length (List.drop n (c :: cs))
    (by simp only [List.length_drop, List.length_cons]; omega) le_rfl]
  rfl

theorem subAll_neg (m) (_hm : ∀ l n ρ, m l = some (n, ρ) → 1 ≤ n)
    (c : Char) (cs : List Char) (h : m (c :: cs) = none) :
    subAll m (c :: cs) = c :: subAll m cs := by
  show subAllF m (c :: cs).length (c :: cs) = _
  rw [show (c :: cs).length = cs.length + 1 from rfl]
  unfold subAllF
  rw [h]
  rfl

theorem litM_some {p l r : List Char} : litM p l = some r ↔ l = p ++ r := by
  induction p generalizing l with
  | nil => simp [litM]
  | cons a ps ih =>
    cases l with
    | nil => simp [litM]
    | cons c cs =>
      rw [litM]
      by_cases hca : c = a
      · subst hca
        simp [ih]
      · simp [hca, Ne.symm hca]

theorem takeWhile_run {p : Char → Bool} (w rest : List Char)
    (hw : ∀ c ∈ w, p c = true)
    (hr : ∀ c cs, rest = c :: cs → p c = false) :
    (w ++ rest).takeWhile p = w := by
  induction w with
  | nil =>
    cases rest with
    | nil => rfl
    | cons c cs => simp [List.takeWhile, hr c cs rfl]
  | cons a as ih =>
    have ha : p a = true := hw a (by simp)
    simp only [List.cons_append, List.takeWhile, ha]
    rw [List.append_eq, ih (fun c hc => hw c (by simp [hc]))]

/-- Structure of a successful match of the first pattern: the input starts
with GOVERNO, a nonempty whitespace run, D, E or O, a nonempty whitespace
run, ESTAD and a final O or A; the consumed length is determined by the two
whitespace runs. -/
def M1Shape (l : List Char) (n : Nat) : Prop :=
  ∃ w1 x w2 y rest, l = GOV ++ w1 ++ 'D' :: x :: (w2 ++ ESTAD ++ y :: rest) ∧
    w1 ≠ [] ∧ w2 ≠ [] ∧ (∀ c ∈ w1, wsChar c = true) ∧ (∀ c ∈ w2, wsChar c = true) ∧
    (x = 'E' ∨ x = 'O') ∧ (y = 'O' ∨ y = 'A') ∧ n = 15 + w1.length + w2.length

theorem drop_takeWhile_len {p : Char → Bool} (l : List Char) :
    l.drop (l.takeWhile p).length = l.dropWhile p := by
  induction l with
  | nil => rfl
  | cons c cs ih =>
    by_cases h : p c
    · simp [List.takeWhile_cons, List.dropWhile_cons, h, ih]
    · simp [List.takeWhile_cons, List.dropWhile_cons, h]

theorem takeWhile_split {p : Char → Bool} (l : List Char) :
    l = l.takeWhile p ++ l.drop (l.takeWhile p).length := by
  rw [drop_takeWhile_len, List.takeWhile_append_dropWhile]

theorem m1_some_iff {l : List Char} {n : Nat} {ρ : List Char} :
    m1 l = some (n, ρ) ↔ ρ = r1repl ∧ M1Shape l n := by
  constructor
  · intro h
    unfold m1 at h
    cases hg : litM GOV l with
    | none => rw [hg] at h; exact absurd h (by simp)
    | some l1 =>
      rw [hg] at h
      dsimp only at h
      rw [litM_some] at hg
      split at h
      · exact absurd h (by simp)
      rename_i hw1
      split at h
      case h_2 => exact absurd h (by simp)
      rename_i d x l3 hdrop
      split at h
      case isFalse => exact absurd h (by simp)
      rename_i hdx
      obtain ⟨hd, hx⟩ := hdx
      subst hd
      split at h
      · exact absurd h (by simp)
      rename_i hw2
      cases he : litM ESTAD (l3.drop (l3.takeWhile wsChar).length) with
      | none => rw [he] at h; exact absurd h (by simp)
      | some l5 =>
        rw [he] at h
        dsimp only at h
        rw [litM_some] at he
        cases l5 with
        | nil => exact absurd h (by simp)
        | cons y rest =>
        dsimp only at h
        split at h
        case isFalse => exact absurd h (by simp)
        rename_i hy
        simp only [Option.some.injEq, Prod.mk.injEq] at h
        refine ⟨h.2.symm, l1.takeWhile wsChar, x, l3.takeWhile wsChar, y, rest, ?_, hw1, hw2,
          fun c hc => List.mem_takeWhile_imp hc,
          fun c hc => List.mem_takeWhile_imp hc, hx, hy, h.1.symm⟩
        calc l = GOV ++ l1 := hg
        _ = GOV ++ (l1.takeWhile wsChar ++ l1.drop (l1.takeWhile wsChar).length) := by
              rw [← takeWhile_split]
        _ = GOV ++ (l1.takeWhile wsChar ++ ('D' :: x :: l3)) := by rw [hdrop]
        _ = GOV ++ l1.takeWhile wsChar ++ 'D' :: x ::
              (l3.takeWhile wsChar ++ l3.drop (l3.takeWhile wsChar).length) := by
              rw [← takeWhile_split]; simp [List.append_assoc]
        _ = GOV ++ l1.takeWhile wsChar ++ 'D' :: x ::
              (l3.takeWhile wsChar ++ (ESTAD ++ y :: rest)) := by rw [he]
        _ = GOV ++ l1.takeWhile wsChar ++ 'D' :: x ::
              (l3.takeWhile wsChar ++ ESTAD ++ y :: rest) := by simp [List.append_assoc]
  · rintro ⟨hρ, w1, x, w2, y, rest, hl, hw1, hw2, hws1, hws2, hx, hy, hn⟩
    subst hρ hn hl
    have hg : litM GOV (GOV ++ (w1 ++ 'D' :: x :: (w2 ++ ESTAD ++ y :: rest))) =
        some (w1 ++ 'D' :: x :: (w2 ++ ESTAD ++ y :: rest)) := litM_some.2 rfl
    have htw1 : (w1 ++ 'D' :: x :: (w2 ++ ESTAD ++ y :: rest)).takeWhile wsChar = w1 :=
      takeWhile_run _ _ hws1 (by intro c cs hc; injection hc with h1 _; subst h1; decide)
    have htw2 : (w2 ++ ESTAD ++ y :: rest).takeWhile wsChar = w2 := by
      rw [List.append_assoc]
      exact takeWhile_run _ _ hws2 (by
        intro c cs hc
        have : (ESTAD ++ y :: rest) = c :: cs := hc
        rw [show ESTAD ++ y :: rest = 'E' :: ('S' :: 'T' :: 'A' :: 'D' :: y :: rest) from rfl] at this
        injection this with h1 _
        subst h1; decide)
    have hdr1 : (w1 ++ 'D' :: x :: (w2 ++ ESTAD ++ y :: rest)).drop w1.length =
        'D' :: x :: (w2 ++ ESTAD ++ y :: rest) := List.drop_left _ _
    have hdr2 : (w2 ++ ESTAD ++ y :: rest).drop w2.length = ESTAD ++ y :: rest := by
      rw [List.append_assoc]; exact List.drop_left _ _
    have hest : litM ESTAD (ESTAD ++ y :: rest) = some (y :: rest) := litM_some.2 rfl
    unfold m1
    rw [List.append_assoc, hg]
    dsimp only
    rw [htw1, hdr1]
    simp only [hw1, if_neg]
    rw [htw2, hdr2, hest]
    simp [hw2, hx, hy]

theorem wsChar_spec {c : Char} (h : wsChar c = true) :
    c = ' ' ∨ c = '\t' ∨ c = '\n' ∨ c = '\r' ∨ c = '\x0b' ∨ c = '\x0c' := by
  simp only [wsChar, Bool.or_eq_true, beq_iff_eq] at h
  tauto

theorem m1_bounds {l : List Char} {n : Nat} {ρ : List Char}
    (h : m1 l = some (n, ρ)) : 1 ≤ n ∧ n ≤ l.length := by
  obtain ⟨-, w1, x, w2, y, rest, hl, -, -, -, -, -, -, hn⟩ := m1_some_iff.1 h
  subst hl hn
  simp [List.length_append, GOV, ESTAD]
  omega

theorem m1_repl {l : List Char} {n : Nat} {ρ : List Char}
    (h : m1 l = some (n, ρ)) : ρ = r1repl := (m1_some_iff.1 h).1

theorem m1_stab (X : List Char) : m1 (r1repl ++ X) = some (17, r1repl) := by
  apply m1_some_iff.2
  refine ⟨rfl, [' '], 'O', [' '], 'O', X, ?_, by simp, by simp, by decide, by decide,
    Or.inr rfl, Or.inl rfl, by simp⟩
  rfl

/-- The structured prefix of a match: the consumed characters. -/
theorem m1_take_shape {l : List Char} {n : Nat} {ρ : List Char}
    (h : m1 l = some (n, ρ)) :
    ∃ w1 x w2 y, l.take n = GOV ++ w1 ++ 'D' :: x :: (w2 ++ ESTAD ++ [y]) ∧
      w1 ≠ [] ∧ w2 ≠ [] ∧ (∀ c ∈ w1, wsChar c = true) ∧ (∀ c ∈ w2, wsChar c = true) ∧
      (x = 'E' ∨ x = 'O') ∧ (y = 'O' ∨ y = 'A') ∧ n = 15 + w1.length + w2.length := by
  obtain ⟨-, w1, x, w2, y, rest, hl, hw1, hw2, hws1, hws2, hx, hy, hn⟩ := m1_some_iff.1 h
  refine ⟨w1, x, w2, y, ?_, hw1, hw2, hws1, hws2, hx, hy, hn⟩
  have hshape : l = (GOV ++ w1 ++ 'D' :: x :: (w2 ++ ESTAD ++ [y])) ++ rest := by
    rw [hl]; simp [List.append_assoc]
  rw [hshape, List.take_left']
  simp [List.length_append, GOV, ESTAD]
  omega

/-- A successful match is determined by the consumed characters: any other
input sharing that prefix matches identically. -/
theorem m1_take_det {u v : List Char} {n : Nat} {ρ : List Char}
    (hu : m1 u = some (n, ρ)) (ht : u.take n = v.take n) : m1 v = some (n, ρ) := by
  obtain ⟨w1, x, w2, y, hs, hw1, hw2, hws1, hws2, hx, hy, hn⟩ := m1_take_shape hu
  have hρ := m1_repl hu
  subst hρ
  have hnu : n ≤ u.length := (m1_bounds hu).2
  have hlen : (u.take n).length = n := by simp [List.length_take]; omega
  have hnv : n ≤ v.length := by
    have : (v.take n).length = n := by rw [← ht]; exact hlen
    simp [List.length_take] at this
    omega
  have hv : v = (GOV ++ w1 ++ 'D' :: x :: (w2 ++ ESTAD ++ [y])) ++ v.drop n := by
    conv_lhs => rw [← List.take_append_drop n v]
    rw [← ht, hs]
  apply m1_some_iff.2
  refine ⟨rfl, w1, x, w2, y, v.drop n, ?_, hw1, hw2, hws1, hws2, hx, hy, hn⟩
  calc v = (GOV ++ w1 ++ 'D' :: x :: (w2 ++ ESTAD ++ [y])) ++ v.drop n := hv
  _ = GOV ++ w1 ++ 'D' :: x :: (w2 ++ ESTAD ++ y :: v.drop n) := by
      simp [List.append_assoc]

theorem struct_forall {P : Char → Prop} {g w1 w2 : List Char} {x y : Char}
    (hG : ∀ c ∈ g, P c) (h1 : ∀ c ∈ w1, P c) (hD : P 'D') (hx : P x)
    (h2 : ∀ c ∈ w2, P c) (hE : ∀ c ∈ ESTAD, P c) (hy : P y) :
    ∀ c ∈ g ++ w1 ++ 'D' :: x :: (w2 ++ ESTAD ++ [y]), P c := by
  intro c hc
  simp only [List.mem_append, List.mem_cons, List.mem_singleton, List.not_mem_nil,
    or_false] at hc
  rcases hc with (hc | hc) | hc | hc | (hc | hc) | hc
  · exact hG c hc
  · exact h1 c hc
  · subst hc; exact hD
  · subst hc; exact hx
  · exact h2 c hc
  · exact hE c hc
  · subst hc; exact hy

/-- Characters consumed by a match of the first pattern are plain upper-case
letters of the pattern words or whitespace; in particular never Í, ç or a
lower-case c. -/
theorem m1_chars {l : List Char} {n : Nat} {ρ : List Char}
    (h : m1 l = some (n, ρ)) : ∀ c ∈ l.take n, c ≠ 'Í' ∧ c ≠ 'ç' ∧ c ≠ 'c' := by
  obtain ⟨w1, x, w2, y, hs, -, -, hws1, hws2, hx, hy, -⟩ := m1_take_shape h
  rw [hs]
  refine struct_forall (by decide) ?_ (by decide) ?_ ?_ (by decide) ?_
  · intro c hc; rcases wsChar_spec (hws1 c hc) with h | h | h | h | h | h <;> subst h <;> decide
  · rcases hx with h | h <;> subst h <;> decide
  · intro c hc; rcases wsChar_spec (hws2 c hc) with h | h | h | h | h | h <;> subst h <;> decide
  · rcases hy with h | h <;> subst h <;> decide

/-- Only the first consumed character of a match of the first pattern can be
the letter G. -/
theorem m1_noG {l : List Char} {n : Nat} {ρ : List Char}
    (h : m1 l = some (n, ρ)) : ∀ c ∈ (l.take n).drop 1, c ≠ 'G' := by
  obtain ⟨w1, x, w2, y, hs, -, -, hws1, hws2, hx, hy, -⟩ := m1_take_shape h
  rw [hs]
  rw [show GOV ++ w1 ++ 'D' :: x :: (w2 ++ ESTAD ++ [y]) =
    'G' :: (['O', 'V', 'E', 'R', 'N', 'O'] ++ w1 ++ 'D' :: x :: (w2 ++ ESTAD ++ [y]))
    from by simp [GOV]]
  rw [List.drop_one, List.tail_cons]
  refine struct_forall (by decide) ?_ (by decide) ?_ ?_ (by decide) ?_
  · intro c hc; rcases wsChar_spec (hws1 c hc) with h | h | h | h | h | h <;> subst h <;> decide
  · rcases hx with h | h <;> subst h <;> decide
  · intro c hc; rcases wsChar_spec (hws2 c hc) with h | h | h | h | h | h <;> subst h <;> decide
  · rcases hy with h | h <;> subst h <;> decide

theorem take_append_le {n : Nat} (s X : List Char) (h : n ≤ s.length) :
    (s ++ X).take n = s.take n := by
  rw [List.take_append_eq_append_take, Nat.sub_eq_zero_of_le h, List.take_zero,
    List.append_nil]

/-- A match of the first pattern starting before an occurrence of its
replacement text never reaches into that occurrence. -/
theorem m1_no_cross {s Z : List Char} {n : Nat} {ρ : List Char} (hs : s ≠ [])
    (h : m1 (s ++ (r1repl ++ Z)) = some (n, ρ)) : n ≤ s.length := by
  by_contra hgt
  push_neg at hgt
  have hG : 'G' ∈ ((s ++ (r1repl ++ Z)).take n).drop 1 := by
    have htake : (s ++ (r1repl ++ Z)).take n = s ++ (r1repl ++ Z).take (n - s.length) := by
      rw [List.take_append_eq_append_take, List.take_of_length_le (by omega)]
    rw [htake,
      show r1repl ++ Z =
        'G' :: (['O', 'V', 'E', 'R', 'N', 'O', ' ', 'D', 'O', ' ', 'E', 'S', 'T', 'A', 'D', 'O'] ++ Z)
        from rfl,
      List.take_cons (by omega)]
    cases s with
    | nil => exact absurd rfl hs
    | cons a s' => simp
  exact absurd rfl (m1_noG h 'G' hG)

/-- The first pattern never matches at a proper interior position of its own
replacement text. -/
theorem m1_no_interior {p : Nat} {Z : List Char} {n : Nat} {ρ : List Char}
    (hp0 : 0 < p) (hp : p < r1repl.length) (h : m1 (r1repl.drop p ++ Z) = some (n, ρ)) :
    False := by
  obtain ⟨-, w1, x, w2, y, rest, hl, -, -, -, -, -, -, -⟩ := m1_some_iff.1 h
  have hhead : (r1repl.drop p ++ Z).head? = some 'G' := by
    rw [hl, show GOV ++ w1 ++ 'D' :: x :: (w2 ++ ESTAD ++ y :: rest) =
      'G' :: (['O', 'V', 'E', 'R', 'N', 'O'] ++ w1 ++ 'D' :: x :: (w2 ++ ESTAD ++ y :: rest))
      from by simp [GOV]]
    rfl
  have hdropc : r1repl.drop p = r1repl[p] :: r1repl.drop (p + 1) :=
    List.drop_eq_getElem_cons hp
  rw [hdropc] at hhead
  simp only [List.cons_append, List.head?_cons, Option.some.injEq] at hhead
  have hgd : r1repl.getD p ' ' = 'G' := by
    rw [List.getD_eq_getElem _ _ hp]; exact hhead
  have h17 : r1repl.length = 17 := rfl
  have hforbid : ∀ q, q < 17 → 0 < q → r1repl.getD q ' ' ≠ 'G' := by decide
  exact hforbid p (by omega) hp0 hgd

theorem m2_bounds {l : List Char} {n : Nat} {ρ : List Char}
    (h : m2 l = some (n, ρ)) : 1 ≤ n ∧ n ≤ l.length := by
  unfold m2 at h
  split at h
  · rename_i htake
    simp only [Option.some.injEq, Prod.mk.injEq] at h
    have h9 : (l.take 9).length = 9 := by
      rcases htake with ht | ht <;> rw [ht] <;> rfl
    simp only [List.length_take] at h9
    omega
  · exact absurd h (by simp)

theorem m2_repl {l : List Char} {n : Nat} {ρ : List Char}
    (h : m2 l = some (n, ρ)) : ρ = matAcc := by
  unfold m2 at h
  split at h
  · simp only [Option.some.injEq, Prod.mk.injEq] at h
    exact h.2.symm
  · exact absurd h (by simp)

theorem m2_n {l : List Char} {n : Nat} {ρ : List Char}
    (h : m2 l = some (n, ρ)) : n = 9 := by
  unfold m2 at h
  split at h
  · simp only [Option.some.injEq, Prod.mk.injEq] at h
    exact h.1.symm
  · exact absurd h (by simp)

theorem m2_alts {l : List Char} {n : Nat} {ρ : List Char}
    (h : m2 l = some (n, ρ)) : l.take 9 = matAcc ∨ l.take 9 = matPlain := by
  unfold m2 at h
  split at h
  · assumption
  · exact absurd h (by simp)

theorem m2_stab (X : List Char) : m2 (matAcc ++ X) = some (9, matAcc) := by
  unfold m2
  rw [if_pos]
  left
  exact List.take_left' rfl

theorem m2_take_det {u v : List Char} {n : Nat} {ρ : List Char}
    (hu : m2 u = some (n, ρ)) (ht : u.take n = v.take n) : m2 v = some (n, ρ) := by
  have h9 := m2_n hu
  subst h9
  have hρ := m2_repl hu
  subst hρ
  have halts := m2_alts hu
  unfold m2
  rw [← ht] at *
  rw [if_pos halts]

theorem m2_no_cross {s Z : List Char} {n : Nat} {ρ : List Char} (hs : s ≠ [])
    (h : m2 (s ++ (matAcc ++ Z)) = some (n, ρ)) : n ≤ s.length := by
  have h9 := m2_n h
  subst h9
  by_contra hgt
  push_neg at hgt
  have hslen : s.length < 9 := hgt
  have hs1 : 1 ≤ s.length := by
    cases s with
    | nil => exact absurd rfl hs
    | cons a s' => simp
  have htake : (s ++ (matAcc ++ Z)).take 9 = s ++ matAcc.take (9 - s.length) := by
    rw [List.take_append_eq_append_take, List.take_of_length_le (le_of_lt hslen),
      take_append_le _ _ (by have h9 : matAcc.length = 9 := rfl; omega)]
  have halts := m2_alts h
  rw [htake] at halts
  have hdropped : matAcc.drop s.length = matAcc.take (9 - s.length) ∨
      matPlain.drop s.length = matAcc.take (9 - s.length) := by
    rcases halts with ha | ha
    · left
      calc matAcc.drop s.length = (s ++ matAcc.take (9 - s.length)).drop s.length := by rw [ha]
      _ = matAcc.take (9 - s.length) := List.drop_left _ _
    · right
      calc matPlain.drop s.length = (s ++ matAcc.take (9 - s.length)).drop s.length := by rw [ha]
      _ = matAcc.take (9 - s.length) := List.drop_left _ _
  have hforbid : ∀ q, q < 9 → 1 ≤ q →
      matAcc.drop q ≠ matAcc.take (9 - q) ∧ matPlain.drop q ≠ matAcc.take (9 - q) := by decide
  rcases hdropped with hd | hd
  · exact (hforbid s.length hslen hs1).1 hd
  · exact (hforbid s.length hslen hs1).2 hd

theorem m2_no_interior {p : Nat} {Z : List Char} {n : Nat} {ρ : List Char}
    (hp0 : 0 < p) (hp : p < matAcc.length) (h : m2 (matAcc.drop p ++ Z) = some (n, ρ)) :
    False := by
  have hplen : p < 9 := by simpa [matAcc] using hp
  have hdl : (matAcc.drop p).length = 9 - p := by simp [matAcc]
  have htake : (matAcc.drop p ++ Z).take (9 - p) = matAcc.drop p := List.take_left' hdl
  have halts := m2_alts h
  have htt : ∀ w : List Char, (matAcc.drop p ++ Z).take 9 = w →
      w.take (9 - p) = matAcc.drop p := by
    intro w hw
    rw [← hw, List.take_take, min_eq_left (by omega), htake]
  have hforbid : ∀ q, q < 9 → 1 ≤ q →
      matAcc.take (9 - q) ≠ matAcc.drop q ∧ matPlain.take (9 - q) ≠ matAcc.drop q := by decide
  rcases halts with ha | ha
  · exact (hforbid p hplen hp0).1 (htt _ ha)
  · exact (hforbid p hplen hp0).2 (htt _ ha)

theorem m4_bounds {l : List Char} {n : Nat} {ρ : List Char}
    (h : m4 l = some (n, ρ)) : 1 ≤ n ∧ n ≤ l.length := by
  unfold m4 at h
  split at h
  · rename_i htake
    simp only [Option.some.injEq, Prod.mk.injEq] at h
    have h12 : (l.take 12).length = 12 := by
      rcases htake with ht | ht <;> rw [ht] <;> rfl
    simp only [List.length_take] at h12
    omega
  · exact absurd h (by simp)

theorem m4_repl {l : List Char} {n : Nat} {ρ : List Char}
    (h : m4 l = some (n, ρ)) : ρ = ctrClean := by
  unfold m4 at h
  split at h
  · simp only [Option.some.injEq, Prod.mk.injEq] at h
    exact h.2.symm
  · exact absurd h (by simp)

theorem m4_n {l : List Char} {n : Nat} {ρ : List Char}
    (h : m4 l = some (n, ρ)) : n = 12 := by
  unfold m4 at h
  split at h
  · simp only [Option.some.injEq, Prod.mk.injEq] at h
    exact h.1.symm
  · exact absurd h (by simp)

theorem m4_alts {l : List Char} {n : Nat} {ρ : List Char}
    (h : m4 l = some (n, ρ)) : l.take 12 = ctrDirty ∨ l.take 12 = ctrClean := by
  unfold m4 at h
  split at h
  · assumption
  · exact absurd h (by simp)

theorem m4_stab (X : List Char) : m4 (ctrClean ++ X) = some (12, ctrClean) := by
  unfold m4
  rw [if_pos]
  right
  exact List.take_left' rfl

theorem m4_take_det {u v : List Char} {n : Nat} {ρ : List Char}
    (hu : m4 u = some (n, ρ)) (ht : u.take n = v.take n) : m4 v = some (n, ρ) := by
  have h12 := m4_n hu
  subst h12
  have hρ := m4_repl hu
  subst hρ
  have halts := m4_alts hu
  unfold m4
  rw [← ht] at *
  rw [if_pos halts]

theorem m4_no_cross {s Z : List Char} {n : Nat} {ρ : List Char} (hs : s ≠ [])
    (h : m4 (s ++ (ctrClean ++ Z)) = some (n, ρ)) : n ≤ s.length := by
  have h12 := m4_n h
  subst h12
  by_contra hgt
  push_neg at hgt
  have hslen : s.length < 12 := hgt
  have hs1 : 1 ≤ s.length := by
    cases s with
    | nil => exact absurd rfl hs
    | cons a s' => simp
  have htake : (s ++ (ctrClean ++ Z)).take 12 = s ++ ctrClean.take (12 - s.length) := by
    rw [List.take_append_eq_append_take, List.take_of_length_le (le_of_lt hslen),
      take_append_le _ _ (by have hl : ctrClean.length = 12 := rfl; omega)]
  have halts := m4_alts h
  rw [htake] at halts
  have hdropped : ctrDirty.drop s.length = ctrClean.take (12 - s.length) ∨
      ctrClean.drop s.length = ctrClean.take (12 - s.length) := by
    rcases halts with ha | ha
    · left
      calc ctrDirty.drop s.length = (s ++ ctrClean.take (12 - s.length)).drop s.length := by
            rw [ha]
      _ = ctrClean.take (12 - s.length) := List.drop_left _ _
    · right
      calc ctrClean.drop s.length = (s ++ ctrClean.take (12 - s.length)).drop s.length := by
            rw [ha]
      _ = ctrClean.take (12 - s.length) := List.drop_left _ _
  have hforbid : ∀ q, q < 12 → 1 ≤ q →
      ctrDirty.drop q ≠ ctrClean.take (12 - q) ∧ ctrClean.drop q ≠ ctrClean.take (12 - q) := by
    decide
  rcases hdropped with hd | hd
  · exact (hforbid s.length hslen hs1).1 hd
  · exact (hforbid s.length hslen hs1).2 hd

theorem m4_no_interior {p : Nat} {Z : List Char} {n : Nat} {ρ : List Char}
    (hp0 : 0 < p) (hp : p < ctrClean.length) (h : m4 (ctrClean.drop p ++ Z) = some (n, ρ)) :
    False := by
  have hplen : p < 12 := by simpa [ctrClean] using hp
  have hdl : (ctrClean.drop p).length = 12 - p := by simp [ctrClean]
  have htake : (ctrClean.drop p ++ Z).take (12 - p) = ctrClean.drop p := List.take_left' hdl
  have halts := m4_alts h
  have htt : ∀ w : List Char, (ctrClean.drop p ++ Z).take 12 = w →
      w.take (12 - p) = ctrClean.drop p := by
    intro w hw
    rw [← hw, List.take_take, min_eq_left (by omega), htake]
  have hforbid : ∀ q, q < 12 → 1 ≤ q →
      ctrDirty.take (12 - q) ≠ ctrClean.drop q ∧ ctrClean.take (12 - q) ≠ ctrClean.drop q := by
    decide
  rcases halts with ha | ha
  · exact (hforbid p hplen hp0).1 (htt _ ha)
  · exact (hforbid p hplen hp0).2 (htt _ ha)

theorem m3_bounds {l : List Char} {n : Nat} {ρ : List Char}
    (h : m3 l = some (n, ρ)) : 1 ≤ n ∧ n ≤ l.length := by
  unfold m3 at h
  split at h
  · split at h
    · simp only [Option.some.injEq, Prod.mk.injEq] at h
      simp [← h.1]
    · exact absurd h (by simp)
  · exact absurd h (by simp)

/-- The date pattern rewrites each match to exactly the text it consumed. -/
theorem m3_self {l : List Char} {n : Nat} {ρ : List Char}
    (h : m3 l = some (n, ρ)) : ρ = l.take n := by
  unfold m3 at h
  split at h
  · rename_i a b s c d e f rest
    split at h
    · rename_i hcond
      simp only [Bool.and_eq_true, decide_eq_true_eq] at hcond
      have hslash : s = '/' := hcond.1.1.1.1.2
      simp only [Option.some.injEq, Prod.mk.injEq] at h
      obtain ⟨hn, hρ⟩ := h
      subst hn hρ hslash
      rfl
    · exact absurd h (by simp)
  · exact absurd h (by simp)

section GenericScan

/-- A pattern whose replacement reproduces exactly the consumed text leaves
every input unchanged. -/
theorem subAll_selfrepl (m : List Char → Option (Nat × List Char))
    (hm : ∀ l n ρ, m l = some (n, ρ) → 1 ≤ n)
    (hself : ∀ l n ρ, m l = some (n, ρ) → ρ = l.take n) :
    ∀ l, subAll m l = l := by
  have main : ∀ k l, l.length ≤ k → subAll m l = l := by
    intro k
    induction k with
    | zero =>
      intro l hl
      have : l = [] := List.eq_nil_of_length_eq_zero (by omega)
      subst this
      exact subAll_nil m
    | succ k ih =>
      intro l hl
      cases l with
      | nil => exact subAll_nil m
      | cons c cs =>
        cases hmc : m (c :: cs) with
        | none =>
          rw [subAll_neg m hm c cs hmc, ih cs (by simp at hl; omega)]
        | some p =>
          obtain ⟨n, ρ⟩ := p
          have hn := hm _ _ _ hmc
          have hρ := hself _ _ _ hmc
          rw [subAll_pos m hm c cs n ρ hmc, hρ,
            ih (List.drop n (c :: cs))
              (by simp only [List.length_drop, List.length_cons] at hl ⊢; omega),
            List.take_append_drop]
  exact fun l => main l.length l le_rfl

/-- Scanning never creates a match at a position where the original input
had none: rewriting the tail cannot enable a match that starts strictly
before the rewritten part. -/
theorem subAll_no_new (m : List Char → Option (Nat × List Char))
    (hm : ∀ l n ρ, m l = some (n, ρ) → 1 ≤ n)
    (ρ₀ : List Char)
    (hfix : ∀ l n ρ, m l = some (n, ρ) → ρ = ρ₀)
    (hdet : ∀ u v n ρ, m u = some (n, ρ) → u.take n = v.take n → m v = some (n, ρ))
    (hcross : ∀ s Z n ρ, s ≠ [] → m (s ++ (ρ₀ ++ Z)) = some (n, ρ) → n ≤ s.length) :
    ∀ k cs, cs.length ≤ k → ∀ s, s ≠ [] → m (s ++ cs) = none →
      m (s ++ subAll m cs) = none := by
  intro k
  induction k with
  | zero =>
    intro cs hcs s _ hnone
    have : cs = [] := List.eq_nil_of_length_eq_zero (by omega)
    subst this
    rwa [subAll_nil]
  | succ k ih =>
    intro cs hcs s hs hnone
    cases cs with
    | nil => rwa [subAll_nil]
    | cons c cs' =>
      cases hmc : m (c :: cs') with
      | none =>
        rw [subAll_neg m hm c cs' hmc]
        have hstep := ih cs' (by simp at hcs; omega) (s ++ [c]) (by simp)
          (by rw [List.append_assoc]; simpa using hnone)
        rw [List.append_assoc] at hstep
        simpa using hstep
      | some p =>
        obtain ⟨n, ρ⟩ := p
        have hρ := hfix _ _ _ hmc
        rw [hρ] at hmc
        rw [subAll_pos m hm c cs' n ρ₀ hmc]
        cases hx : m (s ++ (ρ₀ ++ subAll m (List.drop n (c :: cs')))) with
        | none => rfl
        | some q =>
          obtain ⟨n', ρ'⟩ := q
          exfalso
          by_cases hle : n' ≤ s.length
          · have htk : (s ++ (ρ₀ ++ subAll m (List.drop n (c :: cs')))).take n' =
                (s ++ c :: cs').take n' := by
              rw [take_append_le _ _ hle, take_append_le _ _ hle]
            have : m (s ++ c :: cs') = some (n', ρ') := hdet _ _ _ _ hx htk
            rw [this] at hnone
            exact absurd hnone (by simp)
          · exact hle (hcross s _ n' ρ' hs hx)

/-- Scanning is idempotent: a second pass over the output of a first pass
changes nothing. -/
theorem subAll_idem (m : List Char → Option (Nat × List Char))
    (hm : ∀ l n ρ, m l = some (n, ρ) → 1 ≤ n)
    (ρ₀ : List Char) (hρne : ρ₀ ≠ [])
    (hfix : ∀ l n ρ, m l = some (n, ρ) → ρ = ρ₀)
    (hstab : ∀ X, m (ρ₀ ++ X) = some (ρ₀.length, ρ₀))
    (hdet : ∀ u v n ρ, m u = some (n, ρ) → u.take n = v.take n → m v = some (n, ρ))
    (hcross : ∀ s Z n ρ, s ≠ [] → m (s ++ (ρ₀ ++ Z)) = some (n, ρ) → n ≤ s.length) :
    ∀ l, subAll m (subAll m l) = subAll m l := by
  have main : ∀ k l, l.length ≤ k → subAll m (subAll m l) = subAll m l := by
    intro k
    induction k with
    | zero =>
      intro l hl
      have : l = [] := List.eq_nil_of_length_eq_zero (by omega)
      subst this
      rw [subAll_nil, subAll_nil]
    | succ k ih =>
      intro l hl
      cases l with
      | nil => rw [subAll_nil, subAll_nil]
      | cons c cs =>
        cases hmc : m (c :: cs) with
        | none =>
          rw [subAll_neg m hm c cs hmc]
          have hnone : m ([c] ++ subAll m cs) = none := by
            refine subAll_no_new m hm ρ₀ hfix hdet hcross cs.length cs le_rfl [c]
              (by simp) ?_
            simpa using hmc
          rw [show ([c] ++ subAll m cs : List Char) = c :: subAll m cs from rfl] at hnone
          rw [subAll_neg m hm c _ hnone, ih cs (by simp at hl; omega)]
        | some p =>
          obtain ⟨n, ρ⟩ := p
          have hρ := hfix _ _ _ hmc
          rw [hρ] at hmc
          have hn := hm _ _ _ hmc
          rw [subAll_pos m hm c cs n ρ₀ hmc]
          obtain ⟨r, ρ', hρ₀⟩ : ∃ r ρ', ρ₀ = r :: ρ' := by
            cases hq : ρ₀ with
            | nil => exact absurd hq hρne
            | cons r ρ' => exact ⟨r, ρ', rfl⟩
          have hstab' := hstab (subAll m (List.drop n (c :: cs)))
          have hshape : ρ₀ ++ subAll m (List.drop n (c :: cs)) =
              r :: (ρ' ++ subAll m (List.drop n (c :: cs))) := by rw [hρ₀]; rfl
          rw [hshape] at hstab'
          rw [hshape, subAll_pos m hm r _ _ _ hstab']
          rw [← hshape, List.drop_left]
          have hdrop : (List.drop n (c :: cs)).length ≤ k := by
            simp only [List.length_drop, List.length_cons] at hl ⊢
            omega
          rw [ih _ hdrop]
  exact fun l => main l.length l le_rfl

/-- Every match inside the text rewrites to exactly the text it consumed. -/
def SelfOnly (m : List Char → Option (Nat × List Char)) (x : List Char) : Prop :=
  ∀ p n ρ, m (x.drop p) = some (n, ρ) → ρ = (x.drop p).take n

theorem selfOnly_fixed (m : List Char → Option (Nat × List Char))
    (hm : ∀ l n ρ, m l = some (n, ρ) → 1 ≤ n)
    {x : List Char} (hx : SelfOnly m x) : subAll m x = x := by
  have main : ∀ k x, x.length ≤ k → SelfOnly m x → subAll m x = x := by
    intro k
    induction k with
    | zero =>
      intro x hl _
      have : x = [] := List.eq_nil_of_length_eq_zero (by omega)
      subst this
      exact subAll_nil m
    | succ k ih =>
      intro x hl hself
      cases x with
      | nil => exact subAll_nil m
      | cons c cs =>
        cases hmc : m (c :: cs) with
        | none =>
          rw [subAll_neg m hm c cs hmc]
          have hcs : SelfOnly m cs := by
            intro p n ρ hp
            have := hself (p + 1) n ρ (by simpa using hp)
            simpa using this
          rw [ih cs (by simp at hl; omega) hcs]
        | some p =>
          obtain ⟨n, ρ⟩ := p
          have hn := hm _ _ _ hmc
          have hρ : ρ = (c :: cs).take n := by
            have := hself 0 n ρ (by simpa using hmc)
            simpa using this
          rw [subAll_pos m hm c cs n ρ hmc, hρ]
          have hdropSelf : SelfOnly m (List.drop n (c :: cs)) := by
            intro p n' ρ' hp
            rw [List.drop_drop] at hp
            have hres := hself (n + p) n' ρ' hp
            rw [List.drop_drop]
            exact hres
          rw [ih _ (by simp at hl ⊢; omega) hdropSelf, List.take_append_drop]
  exact main x.length x le_rfl hx

theorem fixed_selfOnly (m : List Char → Option (Nat × List Char))
    (hm : ∀ l n ρ, m l = some (n, ρ) → 1 ≤ n)
    (hb : ∀ l n ρ, m l = some (n, ρ) → n ≤ l.length)
    (ρ₀ : List Char)
    (hfix : ∀ l n ρ, m l = some (n, ρ) → ρ = ρ₀)
    (hstab : ∀ X, m (ρ₀ ++ X) = some (ρ₀.length, ρ₀))
    (hInt : ∀ p Z n ρ, 0 < p → p < ρ₀.length → m (ρ₀.drop p ++ Z) = some (n, ρ) → False)
    {x : List Char} (hx : subAll m x = x) : SelfOnly m x := by
  have main : ∀ k x, x.length ≤ k → subAll m x = x → SelfOnly m x := by
    intro k
    induction k with
    | zero =>
      intro x hl _ p n ρ hp
      have : x = [] := List.eq_nil_of_length_eq_zero (by omega)
      subst this
      rw [List.drop_nil] at hp
      have h1 := hb _ _ _ hp
      have h2 := hm _ _ _ hp
      simp at h1
      omega
    | succ k ih =>
      intro x hl hfx
      cases x with
      | nil =>
        intro p n ρ hp
        rw [List.drop_nil] at hp
        have h1 := hb _ _ _ hp
        have h2 := hm _ _ _ hp
        simp at h1
        omega
      | cons c cs =>
        cases hmc : m (c :: cs) with
        | none =>
          have hcs : subAll m cs = cs := by
            have hthis := hfx
            rw [subAll_neg m hm c cs hmc] at hthis
            exact (List.cons.inj hthis).2
          have hcsSelf := ih cs (by simp at hl; omega) hcs
          intro p n ρ hp
          cases p with
          | zero =>
            rw [List.drop_zero] at hp
            rw [hp] at hmc
            exact absurd hmc (by simp)
          | succ p' =>
            have := hcsSelf p' n ρ (by simpa using hp)
            simpa using this
        | some q =>
          obtain ⟨n, ρ⟩ := q
          have hρ := hfix _ _ _ hmc
          rw [hρ] at hmc
          have hn1 := hm _ _ _ hmc
          have hfx' := hfx
          rw [subAll_pos m hm c cs n ρ₀ hmc] at hfx'
          have hstab' := hstab (subAll m (List.drop n (c :: cs)))
          have hneq : n = ρ₀.length := by
            have h1 : m (c :: cs) = some (ρ₀.length, ρ₀) := by
              rw [← hfx']
              exact hstab'
            rw [hmc] at h1
            have h2 := Option.some.inj h1
            exact (Prod.mk.injEq .. ▸ h2).1
          have htkn : (c :: cs).take n = ρ₀ := by
            have h3 : (ρ₀ ++ subAll m (List.drop n (c :: cs))).take ρ₀.length = ρ₀ :=
              List.take_left _ _
            rw [hfx'] at h3
            rw [hneq]
            exact h3
          have hdropA : List.drop n (c :: cs) = subAll m (List.drop n (c :: cs)) := by
            have h4 : (ρ₀ ++ subAll m (List.drop n (c :: cs))).drop ρ₀.length =
                subAll m (List.drop n (c :: cs)) := List.drop_left _ _
            rw [hfx'] at h4
            rw [← h4, hneq]
          have hdropSelf : SelfOnly m (List.drop n (c :: cs)) :=
            ih _ (by simp only [List.length_drop, List.length_cons] at hl ⊢; omega)
              hdropA.symm
          intro p n' ρ' hp
          rcases Nat.lt_trichotomy p 1 with hp0 | hp1
          · interval_cases p
            rw [List.drop_zero] at hp ⊢
            rw [hp] at hmc
            have h5 := Option.some.inj hmc
            obtain ⟨hn', hρ'⟩ := Prod.mk.injEq .. ▸ h5
            rw [hρ', hn']
            exact htkn.symm
          · have hp1' : 1 ≤ p := by omega
            rcases Nat.lt_or_ge p n with hplt | hpge
            · exfalso
              have hx0 : 0 < p := by omega
              have hdecomp : (c :: cs).drop p = ρ₀.drop p ++ List.drop n (c :: cs) := by
                conv_lhs => rw [← List.take_append_drop n (c :: cs)]
                rw [List.drop_append_eq_append_drop, htkn,
                  Nat.sub_eq_zero_of_le (by omega), List.drop_zero]
              rw [hdecomp] at hp
              exact hInt p _ n' ρ' hx0 (by omega) hp
            · have hshift : (c :: cs).drop p = (List.drop n (c :: cs)).drop (p - n) := by
                rw [List.drop_drop]
                congr 1
                omega
              rw [hshift] at hp
              rw [hshift]
              exact hdropSelf _ _ _ hp
  exact main x.length x le_rfl hx

end GenericScan

/-- Relation between an original character and the one the scan of a rewrite
pass leaves at the same position: either unchanged, or the single corrected
character the pass introduces. -/
def chgRel (cf ct : Char) (a b : Char) : Prop := b = a ∨ (a = cf ∧ b = ct)

theorem chgRel_take_eq {cf ct : Char} {u v : List Char}
    (h : List.Forall₂ (chgRel cf ct) u v) :
    ∀ n, (∀ c ∈ v.take n, c ≠ ct) → v.take n = u.take n := by
  induction h with
  | nil => intro n _; rfl
  | @cons a b u' v' hab htail ih =>
    intro n hav
    cases n with
    | zero => rfl
    | succ n' =>
      simp only [List.take_succ_cons]
      have hbct : b ≠ ct := hav b (by simp)
      have hba : b = a := by
        rcases hab with h1 | ⟨h1, h2⟩
        · exact h1
        · exact absurd h2 hbct
      rw [hba, ih n' (fun c hc => hav c (by simp [hc]))]

/-- A rewrite pass that only introduces a character foreign to another
pattern preserves the property that every match of that pattern is a
self-match. -/
theorem selfOnly_transfer (m : List Char → Option (Nat × List Char))
    (hdet : ∀ u v n ρ, m u = some (n, ρ) → u.take n = v.take n → m v = some (n, ρ))
    {cf ct : Char}
    (havoid : ∀ l n ρ, m l = some (n, ρ) → ∀ c ∈ l.take n, c ≠ ct)
    {x y : List Char} (hrel : List.Forall₂ (chgRel cf ct) x y)
    (hx : SelfOnly m x) : SelfOnly m y := by
  intro p n ρ hfire
  have hdrops : List.Forall₂ (chgRel cf ct) (x.drop p) (y.drop p) :=
    List.forall₂_drop p hrel
  have htake : (y.drop p).take n = (x.drop p).take n :=
    chgRel_take_eq hdrops n (havoid _ _ _ hfire)
  have hfx : m (x.drop p) = some (n, ρ) := hdet _ _ _ _ hfire htake
  rw [htake]
  exact hx p n ρ hfx

/-- Nonempty progress of each matcher, packaged for the scanner. -/
def hm1 : ∀ l n ρ, m1 l = some (n, ρ) → 1 ≤ n := fun _ _ _ h => (m1_bounds h).1

def hm2 : ∀ l n ρ, m2 l = some (n, ρ) → 1 ≤ n := fun _ _ _ h => (m2_bounds h).1

def hm3 : ∀ l n ρ, m3 l = some (n, ρ) → 1 ≤ n := fun _ _ _ h => (m3_bounds h).1

def hm4 : ∀ l n ρ, m4 l = some (n, ρ) → 1 ≤ n := fun _ _ _ h => (m4_bounds h).1

/-- The four substitution passes of `_correct_text`, in the insertion order
of the corrections dict (lines 176-181 of src/main.py). -/
def rule1 : List Char → List Char := subAll m1

def rule2 : List Char → List Char := subAll m2

def rule3 : List Char → List Char := subAll m3

def rule4 : List Char → List Char := subAll m4

def correctionPasses : List (List Char → List Char) := [rule1, rule2, rule3, rule4]

/-- Model of `AMDProcessor._correct_text` (lines 174-184 of src/main.py):
the loop applies each substitution pass to the result of the previous one,
in dict insertion order. -/
def correct_text (t : List Char) : List Char :=
  correctionPasses.foldl (fun acc r => r acc) t

theorem r1repl_ne : r1repl ≠ [] := by decide

theorem r1repl_len : r1repl.length = 17 := rfl

theorem m1_fix : ∀ l n ρ, m1 l = some (n, ρ) → ρ = r1repl := fun _ _ _ h => m1_repl h

theorem m1_stab' : ∀ X, m1 (r1repl ++ X) = some (r1repl.length, r1repl) := fun X => by
  rw [r1repl_len]
  exact m1_stab X

theorem m1_det : ∀ u v n ρ, m1 u = some (n, ρ) → u.take n = v.take n → m1 v = some (n, ρ) :=
  fun _ _ _ _ hu ht => m1_take_det hu ht

theorem m1_cross : ∀ s Z n ρ, s ≠ [] → m1 (s ++ (r1repl ++ Z)) = some (n, ρ) →
    n ≤ s.length := fun _ _ _ _ hs h => m1_no_cross hs h

theorem rule1_idem : ∀ l, rule1 (rule1 l) = rule1 l :=
  subAll_idem m1 hm1 r1repl r1repl_ne m1_fix m1_stab' m1_det m1_cross

theorem m2_fix : ∀ l n ρ, m2 l = some (n, ρ) → ρ = matAcc := fun _ _ _ h => m2_repl h

theorem m2_stab' : ∀ X, m2 (matAcc ++ X) = some (matAcc.length, matAcc) := fun X => by
  rw [show matAcc.length = 9 from rfl]
  exact m2_stab X

theorem m2_det : ∀ u v n ρ, m2 u = some (n, ρ) → u.take n = v.take n → m2 v = some (n, ρ) :=
  fun _ _ _ _ hu ht => m2_take_det hu ht

theorem m2_cross : ∀ s Z n ρ, s ≠ [] → m2 (s ++ (matAcc ++ Z)) = some (n, ρ) →
    n ≤ s.length := fun _ _ _ _ hs h => m2_no_cross hs h

theorem rule2_idem : ∀ l, rule2 (rule2 l) = rule2 l :=
  subAll_idem m2 hm2 matAcc (by decide) m2_fix m2_stab' m2_det m2_cross

theorem m4_fix : ∀ l n ρ, m4 l = some (n, ρ) → ρ = ctrClean := fun _ _ _ h => m4_repl h

theorem m4_stab' : ∀ X, m4 (ctrClean ++ X) = some (ctrClean.length, ctrClean) := fun X => by
  rw [show ctrClean.length = 12 from rfl]
  exact m4_stab X

theorem m4_det : ∀ u v n ρ, m4 u = some (n, ρ) → u.take n = v.take n → m4 v = some (n, ρ) :=
  fun _ _ _ _ hu ht => m4_take_det hu ht

theorem m4_cross : ∀ s Z n ρ, s ≠ [] → m4 (s ++ (ctrClean ++ Z)) = some (n, ρ) →
    n ≤ s.length := fun _ _ _ _ hs h => m4_no_cross hs h

theorem rule4_idem : ∀ l, rule4 (rule4 l) = rule4 l :=
  subAll_idem m4 hm4 ctrClean (by decide) m4_fix m4_stab' m4_det m4_cross

/-- The date rule replaces every match by exactly the matched text, so the
third pass is the identity. -/
theorem rule3_id : ∀ l, rule3 l = l :=
  subAll_selfrepl m3 hm3 (fun _ _ _ h => m3_self h)

/-- Characters consumed by the MATRÍCULA pattern are never a lower-case c. -/
theorem m2_chars {l : List Char} {n : Nat} {ρ : List Char}
    (h : m2 l = some (n, ρ)) : ∀ c ∈ l.take n, c ≠ 'c' := by
  have h9 := m2_n h
  subst h9
  rcases m2_alts h with ha | ha <;> rw [ha] <;> decide

/-- The second pass only changes characters from I to Í. -/
theorem rule2_pointMod : ∀ x, List.Forall₂ (chgRel 'I' 'Í') x (rule2 x) := by
  have main : ∀ k x, x.length ≤ k → List.Forall₂ (chgRel 'I' 'Í') x (rule2 x) := by
    intro k
    induction k with
    | zero =>
      intro x hl
      have : x = [] := List.eq_nil_of_length_eq_zero (by omega)
      subst this
      rw [show rule2 [] = [] from subAll_nil m2]
      exact List.Forall₂.nil
    | succ k ih =>
      intro x hl
      cases x with
      | nil =>
        rw [show rule2 [] = [] from subAll_nil m2]
        exact List.Forall₂.nil
      | cons c cs =>
        cases hmc : m2 (c :: cs) with
        | none =>
          rw [show rule2 (c :: cs) = c :: rule2 cs from subAll_neg m2 hm2 c cs hmc]
          exact List.Forall₂.cons (Or.inl rfl) (ih cs (by simp at hl; omega))
        | some p =>
          obtain ⟨n, ρ⟩ := p
          have hρ := m2_repl hmc
          have hn := m2_n hmc
          subst hρ hn
          rw [show rule2 (c :: cs) = matAcc ++ rule2 (List.drop 9 (c :: cs)) from
            subAll_pos m2 hm2 c cs 9 matAcc hmc]
          conv_lhs => rw [← List.take_append_drop 9 (c :: cs)]
          apply List.rel_append
          · rcases m2_alts hmc with ha | ha <;> rw [ha]
            · exact List.forall₂_same.2 (fun a _ => Or.inl rfl)
            · exact .cons (.inl rfl) (.cons (.inl rfl) (.cons (.inl rfl) (.cons (.inl rfl)
                (.cons (.inr ⟨rfl, rfl⟩) (.cons (.inl rfl) (.cons (.inl rfl)
                (.cons (.inl rfl) (.cons (.inl rfl) .nil))))))))
          · exact ih _ (by simp only [List.length_drop, List.length_cons] at hl ⊢; omega)
  exact fun x => main x.length x le_rfl

/-- The fourth pass only changes characters from ç to c. -/
theorem rule4_pointMod : ∀ x, List.Forall₂ (chgRel 'ç' 'c') x (rule4 x) := by
  have main : ∀ k x, x.length ≤ k → List.Forall₂ (chgRel 'ç' 'c') x (rule4 x) := by
    intro k
    induction k with
    | zero =>
      intro x hl
      have : x = [] := List.eq_nil_of_length_eq_zero (by omega)
      subst this
      rw [show rule4 [] = [] from subAll_nil m4]
      exact List.Forall₂.nil
    | succ k ih =>
      intro x hl
      cases x with
      | nil =>
        rw [show rule4 [] = [] from subAll_nil m4]
        exact List.Forall₂.nil
      | cons c cs =>
        cases hmc : m4 (c :: cs) with
        | none =>
          rw [show rule4 (c :: cs) = c :: rule4 cs from subAll_neg m4 hm4 c cs hmc]
          exact List.Forall₂.cons (Or.inl rfl) (ih cs (by simp at hl; omega))
        | some p =>
          obtain ⟨n, ρ⟩ := p
          have hρ := m4_repl hmc
          have hn := m4_n hmc
          subst hρ hn
          rw [show rule4 (c :: cs) = ctrClean ++ rule4 (List.drop 12 (c :: cs)) from
            subAll_pos m4 hm4 c cs 12 ctrClean hmc]
          conv_lhs => rw [← List.take_append_drop 12 (c :: cs)]
          apply List.rel_append
          · rcases m4_alts hmc with ha | ha <;> rw [ha]
            · exact .cons (.inl rfl) (.cons (.inl rfl) (.cons (.inl rfl) (.cons (.inl rfl)
                (.cons (.inl rfl) (.cons (.inl rfl) (.cons (.inr ⟨rfl, rfl⟩)
                (.cons (.inl rfl) (.cons (.inl rfl) (.cons (.inl rfl)
                (.cons (.inl rfl) (.cons (.inl rfl) .nil)))))))))))
            · exact List.forall₂_same.2 (fun a _ => Or.inl rfl)
          · exact ih _ (by simp only [List.length_drop, List.length_cons] at hl ⊢; omega)
  exact fun x => main x.length x le_rfl

theorem hb1 : ∀ l n ρ, m1 l = some (n, ρ) → n ≤ l.length := fun _ _ _ h => (m1_bounds h).2

theorem hb2 : ∀ l n ρ, m2 l = some (n, ρ) → n ≤ l.length := fun _ _ _ h => (m2_bounds h).2

theorem m1_int : ∀ p Z n ρ, 0 < p → p < r1repl.length →
    m1 (r1repl.drop p ++ Z) = some (n, ρ) → False :=
  fun _ _ _ _ hp0 hp h => m1_no_interior hp0 hp h

theorem m2_int : ∀ p Z n ρ, 0 < p → p < matAcc.length →
    m2 (matAcc.drop p ++ Z) = some (n, ρ) → False :=
  fun _ _ _ _ hp0 hp h => m2_no_interior hp0 hp h

/-- Idempotence of the whole correction chain. -/
theorem correct_text_fold (t : List Char) :
    correct_text t = rule4 (rule3 (rule2 (rule1 t))) := rfl

theorem correct_text_idem (t : List Char) :
    correct_text (correct_text t) = correct_text t := by
  have hu' : correct_text t = rule4 (rule2 (rule1 t)) := by
    rw [correct_text_fold, rule3_id]
  have hS1 : SelfOnly m1 (correct_text t) := by
    rw [hu']
    refine selfOnly_transfer m1 m1_det
      (fun l n ρ h c hc => (m1_chars h c hc).2.2) (rule4_pointMod _) ?_
    refine selfOnly_transfer m1 m1_det
      (fun l n ρ h c hc => (m1_chars h c hc).1) (rule2_pointMod _) ?_
    exact fixed_selfOnly m1 hm1 hb1 r1repl m1_fix m1_stab' m1_int (rule1_idem t)
  have hr1 : rule1 (correct_text t) = correct_text t := selfOnly_fixed m1 hm1 hS1
  have hS2 : SelfOnly m2 (correct_text t) := by
    rw [hu']
    refine selfOnly_transfer m2 m2_det
      (fun l n ρ h c hc => m2_chars h c hc) (rule4_pointMod _) ?_
    exact fixed_selfOnly m2 hm2 hb2 matAcc m2_fix m2_stab' m2_int (rule2_idem (rule1 t))
  have hr2 : rule2 (correct_text t) = correct_text t := selfOnly_fixed m2 hm2 hS2
  have hr4 : rule4 (correct_text t) = correct_text t := by
    rw [hu']
    exact rule4_idem _
  calc correct_text (correct_text t)
      = rule4 (rule3 (rule2 (rule1 (correct_text t)))) := correct_text_fold _
  _ = rule4 (rule2 (rule1 (correct_text t))) := by rw [rule3_id]
  _ = rule4 (rule2 (correct_text t)) := by rw [hr1]
  _ = rule4 (correct_text t) := by rw [hr2]
  _ = correct_text t := hr4


/-! ### Image preprocessing (`AMDProcessor`, src/main.py lines 29-150)

A grayscale raster image is rows of 0..255 intensities.  The service
rasterizes pages with grayscale=True, so both preprocessing paths receive a
single-channel image and their colour-conversion branch
(`cv2.cvtColor(..., COLOR_BGR2GRAY)` when `len(shape) == 3`) is the identity
branch here. -/

abbrev Img := List (List Nat)

def imgW (img : Img) : Nat := (img.headD []).length

def imgH (img : Img) : Nat := img.length

def pxl (img : Img) (y x : Nat) : Nat := (img.getD y []).getD x 0

/-- The threshold OpenCL kernel (lines 51-67): every texel becomes 255 when
the input texel exceeds the threshold value, else 0. -/
def thresholdKernel (t : Nat) (img : Img) : Img :=
  img.map (fun row => row.map (fun p => if t < p then 255 else 0))

/-- The denoise OpenCL kernel texel function (lines 70-90): an interior
texel becomes the integer mean of its 3x3 neighbourhood (C integer division
by 9); border texels are never written by the kernel, and since the device
buffer is freshly allocated their content is unspecified — modelled as 0.
The claims below only inspect interior texels. -/
def denoiseKernelPxl (img : Img) (y x : Nat) : Nat :=
  if 1 ≤ x ∧ x + 1 < imgW img ∧ 1 ≤ y ∧ y + 1 < imgH img then
    (pxl img (y - 1) (x - 1) + pxl img (y - 1) x + pxl img (y - 1) (x + 1) +
     pxl img y (x - 1) + pxl img y x + pxl img y (x + 1) +
     pxl img (y + 1) (x - 1) + pxl img (y + 1) x + pxl img (y + 1) (x + 1)) / 9
  else 0

def denoiseKernel (img : Img) : Img :=
  (List.range (imgH img)).map (fun y =>
    (List.range (imgW img)).map (fun x => denoiseKernelPxl img y x))

/-- Per-intensity histogram count over the image (8-bit intensities). -/
def histCount (img : Img) (v : Nat) : Nat :=
  (img.map (fun row => row.count v)).sum

/-- Pixels with intensity at most i. -/
def otsuW1 (img : Img) (i : Nat) : Nat :=
  ((List.range (i + 1)).map (histCount img)).sum

/-- Intensity mass of pixels with intensity at most i. -/
def otsuS1 (img : Img) (i : Nat) : Nat :=
  ((List.range (i + 1)).map (fun v => v * histCount img v)).sum

/-- Between-class variance of the split at i, as an exact fraction
(numerator, denominator): sigma(i) is proportional to
(s1*w2 - s2*w1)^2 / (w1*w2).  Modelled from the OpenCV Otsu threshold
selection (cv2.threshold with THRESH_OTSU, an external collaborator of
`_cpu_preprocess`) in exact integer arithmetic in place of doubles; on the
images considered below the selected threshold is identical. -/
def otsuScore (img : Img) (i : Nat) : Nat × Nat :=
  let a := otsuW1 img i
  let b := otsuS1 img i
  let w2 := otsuW1 img 255 - a
  let s2 := otsuS1 img 255 - b
  (((b * w2 : Int) - (s2 * a : Int)).natAbs ^ 2, a * w2)

/-- One step of the scan over candidate thresholds: a split with an empty
class is skipped; otherwise the best (strictly greater variance, earliest
index wins ties) is kept.  The state is (best index, best numerator, best
denominator), starting from variance 0 at index 0. -/
def otsuStep (img : Img) (best : Nat × Nat × Nat) (i : Nat) : Nat × Nat × Nat :=
  let (bi, bn, bd) := best
  let a := otsuW1 img i
  let w2 := otsuW1 img 255 - a
  let (num, den) := otsuScore img i
  if a ≠ 0 ∧ w2 ≠ 0 ∧ bn * den < num * bd then (i, num, den) else (bi, bn, bd)

def otsuThreshold (img : Img) : Nat :=
  ((List.range 256).foldl (otsuStep img) (0, 0, 1)).1

/-- Model of `AMDProcessor._gpu_preprocess` (lines 101-142), success path.
The function runs the denoise kernel and copies its result out, but then
invokes the threshold kernel on `input_buf` — the buffer holding the
original grayscale image — with threshold value 128, and returns that
output; the denoised buffer is never fed to the threshold kernel. -/
def gpu_preprocess (img : Img) : Img :=
  thresholdKernel 128 img

/-- Model of `AMDProcessor._cpu_preprocess` (lines 144-150): grayscale (the
input is single-channel), `cv2.fastNlMeansDenoising(gray, h=30)` — an
external floating-point collaborator, taken as the `denoise` parameter —
then `cv2.threshold(denoised, 0, 255, THRESH_BINARY + THRESH_OTSU)`, which
binarizes the denoised image at the Otsu-selected threshold. -/
def cpu_preprocess (denoise : Img → Img) (img : Img) : Img :=
  thresholdKernel (otsuThreshold (denoise img)) (denoise img)

inductive PreprocPath
  | gpu
  | cpu
deriving DecidableEq, Repr

/-- One call of `_gpu_preprocess` as the pipeline executes it: the body
attempts the accelerated path, and when that attempt raises — modelled by
the per-call outcome flag — the handler on lines 140-142 falls back to
`_cpu_preprocess` for that call.  Neither branch writes any instance
state. -/
def gpu_preprocess_call (denoise : Img → Img) (gpuFails : Bool) (img : Img) :
    Img × PreprocPath :=
  if gpuFails then (cpu_preprocess denoise img, PreprocPath.cpu)
  else (gpu_preprocess img, PreprocPath.gpu)

/-- A run of successive enhance calls on one processor instance: each entry
pairs the accelerated-path outcome of that call with its page image. -/
def enhanceRun (denoise : Img → Img) (calls : List (Bool × Img)) :
    List (Img × PreprocPath) :=
  calls.map (fun ci => gpu_preprocess_call denoise ci.1 ci.2)

inductive InitOutcome
  | ready
  | raised
deriving DecidableEq, Repr

/-- Model of `AMDProcessor.__init__` (lines 30-44): when platform selection,
context creation or kernel compilation fails, the except-handler logs and
re-raises — the constructor never demotes the instance to a CPU-only
pipeline. -/
def amdprocessor_init (probeOk : Bool) : InitOutcome :=
  if probeOk then InitOutcome.ready else InitOutcome.raised

/-! ### Text acquisition (`AMDProcessor.extract_text`, lines 152-172)

The external collaborators — the page rasterizer `convert_from_path` and
the OCR engine `pytesseract.image_to_string` — are function parameters.
The trace counts OCR invocations. -/

/-- The page loop of `extract_text`: for every rasterized page, preprocess
it, invoke OCR on it (counted), correct the text and append a newline. -/
def extract_pages (ocr : Img → List Char) (denoise : Img → Img)
    (gpuFails : Nat → Bool) : Nat → List Img → List Char × Nat
  | _, [] => ([], 0)
  | i, img :: rest =>
    let processed := (gpu_preprocess_call denoise (gpuFails i) img).1
    let pageText := correct_text (ocr processed)
    let tail := extract_pages ocr denoise gpuFails (i + 1) rest
    (pageText ++ '\n' :: tail.1, tail.2 + 1)

/-- Model of `AMDProcessor.extract_text` (lines 152-172): rasterize every
page of the document (DPI 400, grayscale), then run the page loop.  The
function has no other branch: it never reads a native text layer and makes
no threshold comparison of any kind. -/
def extract_text (α : Type) (rasterize : α → List Img) (ocr : Img → List Char)
    (denoise : Img → Img) (gpuFails : Nat → Bool) (pdf : α) : List Char × Nat :=
  extract_pages ocr denoise gpuFails 0 (rasterize pdf)

theorem extract_pages_count (ocr : Img → List Char) (denoise : Img → Img)
    (gpuFails : Nat → Bool) :
    ∀ i imgs, (extract_pages ocr denoise gpuFails i imgs).2 = imgs.length := by
  intro i imgs
  induction imgs generalizing i with
  | nil => rfl
  | cons img rest ih => simp [extract_pages, ih]


/-! ### MoneyParser

Modelled from the spec: MoneyParser is described in §4.6 of the spec but its
code is not among the repository files under src/ (src/main.py carries only
the OCR pipeline and leaves the structured parser unimplemented).  The
model follows the words of the spec: the input uses "." as thousands
separator and "," as decimal separator; parsing removes the thousands
separators, converts the decimal separator and fails with
InvalidMonetaryValue when the result is not a valid decimal number — it
never falls back to a default value. -/

def digitChr : Nat → Char
  | 0 => '0'
  | 1 => '1'
  | 2 => '2'
  | 3 => '3'
  | 4 => '4'
  | 5 => '5'
  | 6 => '6'
  | 7 => '7'
  | 8 => '8'
  | 9 => '9'
  | _ => '0'

def charVal (c : Char) : Nat := c.toNat - 48

/-- Value of a most-significant-first digit string. -/
def digitsVal (ds : List Char) : Nat := ds.foldl (fun acc c => 10 * acc + charVal c) 0

def natToDigitChars (n : Nat) : List Char := (Nat.digits 10 n).reverse.map digitChr

/-- Insert the Brazilian thousands separator: on a least-significant-first
digit list, a "." before every digit whose offset from the right is a
positive multiple of three. -/
def sepEvery3 : List Char → Nat → List Char
  | [], _ => []
  | c :: rest, i =>
    if 0 < i ∧ i % 3 = 0 then '.' :: c :: sepEvery3 rest (i + 1)
    else c :: sepEvery3 rest (i + 1)

def groupThousands (ds : List Char) : List Char := (sepEvery3 ds.reverse 0).reverse

/-- Modelled from the spec: Brazilian formatting of an exact amount of
cents — grouped integer part, "," and exactly two decimal digits
(e.g. 123456 cents formats as 1.234,56). -/
def formatBR (cents : Nat) : List Char :=
  let ip := cents / 100
  let fr := cents % 100
  groupThousands (if ip = 0 then ['0'] else natToDigitChars ip) ++
    ',' :: [digitChr (fr / 10), digitChr (fr % 10)]

/-- Modelled from the spec: remove the "." thousands separators, then turn
the "," decimal separator into ".". -/
def normalizeSeparators (s : List Char) : List Char :=
  (s.filter (fun c => !(c == '.'))).map (fun c => if c = ',' then '.' else c)

/-- Modelled from the spec: a valid decimal literal after separator
conversion — one or more digits, optionally a point followed by one or more
digits — and its exact rational value; anything else is not a number. -/
def parseDecimal (l : List Char) : Option ℚ :=
  let ip := l.takeWhile isDigitCh
  let rest := l.drop ip.length
  if ip.isEmpty then none
  else
    match rest with
    | [] => some (digitsVal ip : ℚ)
    | c :: fr =>
      if c = '.' ∧ fr ≠ [] ∧ fr.all isDigitCh then
        some ((digitsVal ip : ℚ) + (digitsVal fr : ℚ) / (10 : ℚ) ^ fr.length)
      else none

inductive MoneyError
  | invalidMonetaryValue
deriving DecidableEq, Repr

/-- Modelled from the spec: `MoneyParser.parse` — normalize the separators,
then either the exact decimal value or the InvalidMonetaryValue failure;
no default value is ever substituted. -/
def MoneyParser_parse (s : List Char) : Except MoneyError ℚ :=
  match parseDecimal (normalizeSeparators s) with
  | some q => Except.ok q
  | none => Except.error MoneyError.invalidMonetaryValue

theorem digitChr_facts : ∀ d, d < 10 → charVal (digitChr d) = d ∧
    isDigitCh (digitChr d) = true ∧ digitChr d ≠ '.' ∧ digitChr d ≠ ',' := by decide

theorem digitsVal_append (ds : List Char) (c : Char) :
    digitsVal (ds ++ [c]) = 10 * digitsVal ds + charVal c := by
  simp [digitsVal, List.foldl_append]

theorem digitsVal_of_digits : ∀ L : List Nat, (∀ d ∈ L, d < 10) →
    digitsVal (L.reverse.map digitChr) = Nat.ofDigits 10 L := by
  intro L
  induction L with
  | nil => intro; rfl
  | cons d L ih =>
    intro h
    rw [List.reverse_cons, List.map_append, List.map_singleton, digitsVal_append,
      ih (fun x hx => h x (by simp [hx])), Nat.ofDigits_cons,
      (digitChr_facts d (h d (by simp))).1]
    omega

theorem natToDigitChars_val (n : Nat) : digitsVal (natToDigitChars n) = n := by
  unfold natToDigitChars
  rw [digitsVal_of_digits _ (fun d hd => Nat.digits_lt_base (by norm_num) hd)]
  exact Nat.ofDigits_digits 10 n

theorem natToDigitChars_digits (n : Nat) : ∀ c ∈ natToDigitChars n,
    isDigitCh c = true ∧ c ≠ '.' ∧ c ≠ ',' := by
  intro c hc
  unfold natToDigitChars at hc
  rw [List.mem_map] at hc
  obtain ⟨d, hd, rfl⟩ := hc
  have hdlt : d < 10 := Nat.digits_lt_base (by norm_num) (List.mem_reverse.1 hd)
  exact ⟨(digitChr_facts d hdlt).2.1, (digitChr_facts d hdlt).2.2.1,
    (digitChr_facts d hdlt).2.2.2⟩

theorem natToDigitChars_ne_nil {n : Nat} (hn : n ≠ 0) : natToDigitChars n ≠ [] := by
  unfold natToDigitChars
  simp [Nat.digits_ne_nil_iff_ne_zero.2 hn]

theorem sepEvery3_filter (l : List Char) (hd : ∀ c ∈ l, c ≠ '.') :
    ∀ i, (sepEvery3 l i).filter (fun c => !(c == '.')) = l := by
  induction l with
  | nil => intro i; rfl
  | cons c rest ih =>
    intro i
    have hc : (!(c == '.')) = true := by
      simp [hd c (by simp)]
    have hdot : (!(('.' : Char) == '.')) = false := by decide
    unfold sepEvery3
    split
    · rw [List.filter_cons, List.filter_cons, hdot, hc,
        ih (fun x hx => hd x (by simp [hx])) (i + 1)]
      simp
    · rw [List.filter_cons, hc, ih (fun x hx => hd x (by simp [hx])) (i + 1)]
      simp

theorem groupThousands_filter (ds : List Char) (hd : ∀ c ∈ ds, c ≠ '.') :
    (groupThousands ds).filter (fun c => !(c == '.')) = ds := by
  unfold groupThousands
  rw [List.filter_reverse, sepEvery3_filter _ (fun c hc => hd c (List.mem_reverse.1 hc)) 0,
    List.reverse_reverse]

theorem normalize_format (ds : List Char)
    (hd : ∀ c ∈ ds, isDigitCh c = true ∧ c ≠ '.' ∧ c ≠ ',')
    (c1 c2 : Char) (h1 : c1 ≠ ',' ∧ c1 ≠ '.') (h2 : c2 ≠ ',' ∧ c2 ≠ '.') :
    normalizeSeparators (groupThousands ds ++ ',' :: [c1, c2]) = ds ++ '.' :: [c1, c2] := by
  unfold normalizeSeparators
  rw [List.filter_append, groupThousands_filter ds (fun c hc => (hd c hc).2.1)]
  have hfil2 : List.filter (fun c => !(c == '.')) (',' :: [c1, c2]) = ',' :: [c1, c2] := by
    have hb1 : (!(c1 == '.')) = true := by simp [h1.2]
    have hb2 : (!(c2 == '.')) = true := by simp [h2.2]
    rw [List.filter_cons, List.filter_cons, List.filter_cons]
    simp [hb1, hb2]
  rw [hfil2, List.map_append]
  have hmap1 : List.map (fun c => if c = ',' then '.' else c) ds = ds := by
    calc List.map (fun c => if c = ',' then '.' else c) ds
        = List.map id ds := List.map_congr_left (fun c hc => by simp [(hd c hc).2.2])
    _ = ds := List.map_id ds
  have hmap2 : List.map (fun c => if c = ',' then '.' else c) (',' :: [c1, c2]) =
      '.' :: [c1, c2] := by
    simp [h1.1, h2.1]
  rw [hmap1, hmap2]

theorem parse_digits_point (ds : List Char) (hne : ds ≠ [])
    (hd : ∀ c ∈ ds, isDigitCh c = true) (c1 c2 : Char)
    (h1 : isDigitCh c1 = true) (h2 : isDigitCh c2 = true) :
    parseDecimal (ds ++ '.' :: [c1, c2]) =
      some ((digitsVal ds : ℚ) + (digitsVal [c1, c2] : ℚ) / 100) := by
  have htw : (ds ++ '.' :: [c1, c2]).takeWhile isDigitCh = ds :=
    takeWhile_run _ _ hd
      (by intro c cs hcc; injection hcc with hh _; subst hh; decide)
  have hdr : (ds ++ '.' :: [c1, c2]).drop ds.length = '.' :: [c1, c2] :=
    List.drop_left _ _
  unfold parseDecimal
  dsimp only
  rw [htw, hdr]
  rw [if_neg (by simpa using hne)]
  simp only
  rw [if_pos (⟨trivial, by simp, by simp [h1, h2]⟩ :
    True ∧ ([c1, c2] : List Char) ≠ [] ∧ ([c1, c2].all isDigitCh) = true)]
  norm_num

theorem roundtripBR_core (ip fr : Nat) (hfr : fr < 100) :
    MoneyParser_parse (groupThousands (if ip = 0 then ['0'] else natToDigitChars ip) ++
      ',' :: [digitChr (fr / 10), digitChr (fr % 10)]) =
    Except.ok ((ip : ℚ) + (fr : ℚ) / 100) := by
  have hfr10 : fr / 10 < 10 := by omega
  have hfrm : fr % 10 < 10 := by omega
  have hipDigits : ∀ c ∈ (if ip = 0 then ['0'] else natToDigitChars ip),
      isDigitCh c = true ∧ c ≠ '.' ∧ c ≠ ',' := by
    intro c hc
    split at hc
    · simp at hc
      subst hc
      exact ⟨by decide, by decide, by decide⟩
    · exact natToDigitChars_digits ip c hc
  have hipNe : (if ip = 0 then ['0'] else natToDigitChars ip) ≠ [] := by
    split
    · simp
    · exact natToDigitChars_ne_nil (by assumption)
  have hipVal : digitsVal (if ip = 0 then ['0'] else natToDigitChars ip) = ip := by
    split
    · rename_i h0
      rw [h0]
      rfl
    · exact natToDigitChars_val ip
  unfold MoneyParser_parse
  rw [normalize_format _ hipDigits _ _
      ⟨(digitChr_facts (fr / 10) hfr10).2.2.2, (digitChr_facts (fr / 10) hfr10).2.2.1⟩
      ⟨(digitChr_facts (fr % 10) hfrm).2.2.2, (digitChr_facts (fr % 10) hfrm).2.2.1⟩,
    parse_digits_point _ hipNe (fun c hc => (hipDigits c hc).1) _ _
      (digitChr_facts (fr / 10) hfr10).2.1 (digitChr_facts (fr % 10) hfrm).2.1]
  have hfrVal : digitsVal [digitChr (fr / 10), digitChr (fr % 10)] = fr := by
    have h1 := (digitChr_facts (fr / 10) hfr10).1
    have h2 := (digitChr_facts (fr % 10) hfrm).1
    simp only [digitsVal, List.foldl]
    rw [h1, h2]
    omega
  rw [hipVal, hfrVal]

/-- Modelled from the spec: the format/parse round trip recovers the amount
exactly to two decimal places. -/
theorem roundtripBR (cents : Nat) :
    MoneyParser_parse (formatBR cents) = Except.ok ((cents : ℚ) / 100) := by
  have hform : formatBR cents =
      groupThousands (if cents / 100 = 0 then ['0'] else natToDigitChars (cents / 100)) ++
        ',' :: [digitChr (cents % 100 / 10), digitChr (cents % 100 % 10)] := rfl
  rw [hform, roundtripBR_core (cents / 100) (cents % 100) (Nat.mod_lt _ (by norm_num))]
  congr 1
  have hdm2 : cents / 100 * 100 + cents % 100 = cents := by omega
  field_simp
  exact_mod_cast hdm2


/-! ### Header fields, pay components and the assembler

Modelled from the spec: HeaderFields, PayComponent, Paycheck (§3),
FieldExtractor (§4.4) and PaycheckAssembler (§4.7) are described by the
spec but their code is not among the repository files under src/. -/

/-- The explicit sentinel for a header field no pattern matched. -/
def NOT_FOUND : List Char := ['N', 'O', 'T', '_', 'F', 'O', 'U', 'N', 'D']

/-- Modelled from the spec: the three header fields, each either a matched
string or the NOT_FOUND sentinel — by construction never missing. -/
structure HeaderFields where
  name : List Char
  registrationId : List Char
  referencePeriod : List Char
deriving DecidableEq, Repr

/-- Modelled from the spec: one compensation line item. -/
structure PayComponent where
  code : List Char
  description : List Char
  percentage : Option ℚ
  value : ℚ
deriving DecidableEq, Repr

/-- Modelled from the spec: the assembled record of one document segment. -/
structure Paycheck where
  name : List Char
  registrationId : List Char
  referencePeriod : List Char
  components : List PayComponent
deriving DecidableEq, Repr

inductive AssembleError
  | notRecognized
deriving DecidableEq, Repr

/-- Modelled from the spec: a segment fails recognition exactly when all
three header fields are the NOT_FOUND sentinel and it has zero
components. -/
def segmentFails (h : HeaderFields) (t : List PayComponent) : Bool :=
  h.name == NOT_FOUND && h.registrationId == NOT_FOUND &&
    h.referencePeriod == NOT_FOUND && t.isEmpty

def mkPaycheck (h : HeaderFields) (t : List PayComponent) : Paycheck :=
  ⟨h.name, h.registrationId, h.referencePeriod, t⟩

/-- Modelled from the spec (§4.7): each (header, table) segment pair is
assembled independently; segments that fail recognition are omitted from
the result, not raised, unless every segment fails, in which case the call
fails with NotRecognizedError. -/
def assemble (headerList : List HeaderFields) (tableList : List (List PayComponent)) :
    Except AssembleError (List Paycheck) :=
  let segs := headerList.zip tableList
  let good := segs.filter (fun sg => !(segmentFails sg.1 sg.2))
  if segs.isEmpty then Except.ok []
  else if good.isEmpty then Except.error AssembleError.notRecognized
  else Except.ok (good.map (fun sg => mkPaycheck sg.1 sg.2))

/-! ### FieldExtractor -/

/-- Modelled from the spec: a candidate extraction pattern either matches
the text and yields the field string, or does not match. -/
abbrev FieldPattern := List Char → Option (List Char)

/-- Modelled from the spec: try the ordered candidate patterns; the first
pattern that matches wins; when none matches the field is the NOT_FOUND
sentinel — a miss is recorded as data, never an exception. -/
def firstMatch : List FieldPattern → List Char → List Char
  | [], _ => NOT_FOUND
  | p :: ps, t =>
    match p t with
    | some v => v
    | none => firstMatch ps t

/-- Modelled from the spec: the ordered strategy lists for the three header
fields, registered as data. -/
structure HeaderPatterns where
  namePats : List FieldPattern
  registrationIdPats : List FieldPattern
  referencePeriodPats : List FieldPattern

/-- Modelled from the spec: extractHeader is total and produces all three
fields through the ordered strategy lists. -/
def extractHeader (P : HeaderPatterns) (t : List Char) : HeaderFields :=
  ⟨firstMatch P.namePats t, firstMatch P.registrationIdPats t,
    firstMatch P.referencePeriodPats t⟩

/-- The first-match contract of one field: either some pattern matches, the
winning value comes from the earliest matching pattern, and every earlier
pattern missed; or no pattern matches and the field is the sentinel. -/
def FirstMatchSpec (pats : List FieldPattern) (t v : List Char) : Prop :=
  (∃ i, ∃ hi : i < pats.length, (pats.get ⟨i, hi⟩) t = some v ∧
    ∀ j, ∀ hj : j < i, (pats.get ⟨j, Nat.lt_trans hj hi⟩) t = none) ∨
  (v = NOT_FOUND ∧ ∀ p ∈ pats, p t = none)

theorem firstMatch_spec (pats : List FieldPattern) (t : List Char) :
    FirstMatchSpec pats t (firstMatch pats t) := by
  induction pats with
  | nil => exact Or.inr ⟨rfl, by simp⟩
  | cons p ps ih =>
    cases hp : p t with
    | some v =>
      refine Or.inl ⟨0, by simp, ?_, ?_⟩
      · simp [firstMatch, hp]
      · intro j hj
        omega
    | none =>
      rcases ih with ⟨i, hi, hv, hnones⟩ | ⟨hv, hall⟩
      · refine Or.inl ⟨i + 1, by simpa using Nat.succ_lt_succ hi, ?_, ?_⟩
        · simpa [firstMatch, hp] using hv
        · intro j hj
          cases j with
          | zero => simpa using hp
          | succ j' => simpa using hnones j' (by omega)
      · refine Or.inr ⟨by simpa [firstMatch, hp] using hv, ?_⟩
        intro q hq
        rcases List.mem_cons.1 hq with rfl | hq'
        · exact hp
        · exact hall q hq'

/-! ### The parse-pdf endpoint and its temporary file (lines 186-213) -/

inductive BodyOutcome
  | success
  | extractionFailure
  | unexpectedError
deriving DecidableEq, Repr

inductive HttpOutcome
  | ok
  | badRequest
  | internalError
deriving DecidableEq, Repr

/-- The finally block of `parse_pdf`: remove the temporary file when it
exists. -/
def finallyCleanup (tempExists : Bool) : Bool :=
  if tempExists then false else tempExists

/-- Model of the `parse_pdf` endpoint (lines 186-213): write the upload to
the fixed temporary path (when the write itself raises, the body never
runs, the exception propagates as an internal error and the file was not
created); otherwise run the processing body, whose outcome is success, the
HTTPException from `extract_text` (re-raised as 400) or an unexpected
exception (wrapped as 500); the finally block then removes the temporary
file when it exists.  The second component of the result is whether the
temporary file still exists after the call. -/
def parse_pdf_run (writeOk : Bool) (outcome : BodyOutcome) : HttpOutcome × Bool :=
  let tempAfterWrite := writeOk
  let result :=
    if writeOk then
      match outcome with
      | BodyOutcome.success => HttpOutcome.ok
      | BodyOutcome.extractionFailure => HttpOutcome.badRequest
      | BodyOutcome.unexpectedError => HttpOutcome.internalError
    else HttpOutcome.internalError
  (result, finallyCleanup tempAfterWrite)


theorem assemble_spec (hs : List HeaderFields) (ts : List (List PayComponent)) :
    (assemble hs ts = Except.error AssembleError.notRecognized ↔
      (hs.zip ts ≠ [] ∧ ∀ sg ∈ hs.zip ts, segmentFails sg.1 sg.2 = true)) ∧
    (∀ l, assemble hs ts = Except.ok l → ∀ pc ∈ l,
      ¬(pc.name = NOT_FOUND ∧ pc.registrationId = NOT_FOUND ∧
        pc.referencePeriod = NOT_FOUND ∧ pc.components = [])) := by
  unfold assemble
  by_cases hseg : (hs.zip ts).isEmpty
  · rw [if_pos hseg]
    rw [List.isEmpty_iff] at hseg
    constructor
    · constructor
      · intro h
        exact absurd h (by simp)
      · rintro ⟨hne, -⟩
        exact absurd hseg hne
    · intro l hl pc hpc
      have : l = [] := by simpa using hl.symm
      subst this
      simp at hpc
  · rw [if_neg hseg]
    rw [List.isEmpty_iff] at hseg
    by_cases hgood : ((hs.zip ts).filter (fun sg => !(segmentFails sg.1 sg.2))).isEmpty
    · rw [if_pos hgood]
      rw [List.isEmpty_iff, List.filter_eq_nil_iff] at hgood
      constructor
      · constructor
        · intro _
          refine ⟨hseg, fun sg hsg => ?_⟩
          have := hgood sg hsg
          simpa using this
        · intro _
          rfl
      · intro l hl
        exact absurd hl (by simp)
    · rw [if_neg hgood]
      rw [List.isEmpty_iff] at hgood
      constructor
      · constructor
        · intro h
          exact absurd h (by simp)
        · rintro ⟨-, hall⟩
          obtain ⟨sg, hsgmem⟩ := List.exists_mem_of_ne_nil _ hgood
          rw [List.mem_filter] at hsgmem
          have hfail := hall sg hsgmem.1
          rw [hfail] at hsgmem
          simpa using hsgmem.2
      · intro l hl pc hpc
        have hleq : l = ((hs.zip ts).filter (fun sg => !(segmentFails sg.1 sg.2))).map
            (fun sg => mkPaycheck sg.1 sg.2) := by
          simpa using hl.symm
        subst hleq
        rw [List.mem_map] at hpc
        obtain ⟨sg, hsgmem, rfl⟩ := hpc
        rw [List.mem_filter] at hsgmem
        have hnofail := hsgmem.2
        rintro ⟨h1, h2, h3, h4⟩
        have : segmentFails sg.1 sg.2 = true := by
          unfold segmentFails
          unfold mkPaycheck at h1 h2 h3 h4
          simp only at h1 h2 h3 h4
          simp [h1, h2, h3, h4]
        rw [this] at hnofail
        simp at hnofail

/-- Concrete inputs for the assembler claims. -/
def exHeaderBad : HeaderFields := ⟨NOT_FOUND, NOT_FOUND, NOT_FOUND⟩

def exHeaderGood : HeaderFields :=
  ⟨['A', 'N', 'A'], ['1', '2', '3'], ['0', '1', '/', '2', '0', '2', '4']⟩

def exComponent : PayComponent :=
  ⟨['0', '0', '0', '0', '2'], ['V', 'E', 'N', 'C'], none, 269371 / 100⟩

/-- Claim C1, counterexample: `extract_text` invokes OCR for every
rasterized page of every document — here a two-page document, two OCR
calls — although the document may well carry a native text layer of any
length: the function never reads one and has no threshold check, so the
claimed short-circuit (OCR never invoked once the native length reaches
the threshold) is false on the code. -/
theorem claim_C1_counterexample :
    (extract_text Nat (fun _ => [[[140, 200]], [[140, 200]]]) (fun _ => [])
      (fun i => i) (fun _ => false) 0).2 = 2 := by decide

/-- Claim C1, amended: the acquisition operation of src/main.py
unconditionally rasterizes the document and invokes OCR exactly once per
rasterized page; no native text layer is consulted and no threshold
comparison exists. -/
theorem claim_C1_amended (α : Type) (rasterize : α → List Img) (ocr : Img → List Char)
    (denoise : Img → Img) (gpuFails : Nat → Bool) (pdf : α) :
    (extract_text α rasterize ocr denoise gpuFails pdf).2 = (rasterize pdf).length :=
  extract_pages_count ocr denoise gpuFails 0 (rasterize pdf)

set_option maxRecDepth 4000 in
/-- Claim C4, counterexample: a run in which the accelerated path fails on
the first call and is attempted again — successfully — on the second call,
refuting the claimed permanent demotion to the CPU path. -/
theorem claim_C4_counterexample :
    (enhanceRun (fun i => i) [(true, [[140, 200]]), (false, [[140, 200]])]).map Prod.snd =
      [PreprocPath.cpu, PreprocPath.gpu] := by decide

/-- Claim C4, amended: the path taken by each enhance call depends only on
that call's own accelerated-path outcome — the fallback in
`_gpu_preprocess` is per call and caches nothing — and a failure of the
construction-time probe raises from `__init__` instead of demoting the
instance to the CPU path. -/
theorem claim_C4_amended :
    (∀ (denoise : Img → Img) (calls : List (Bool × Img)),
      (enhanceRun denoise calls).map Prod.snd =
        calls.map (fun ci => if ci.1 then PreprocPath.cpu else PreprocPath.gpu)) ∧
    amdprocessor_init false = InitOutcome.raised := by
  constructor
  · intro denoise calls
    rw [enhanceRun, List.map_map]
    exact List.map_congr_left
      (fun ci _ => by by_cases h : ci.1 <;> simp [gpu_preprocess_call, h, Function.comp])
  · rfl

set_option maxRecDepth 4000 in
/-- Claim C5, counterexample: on the 1×2 image with intensities 140 and
200, the accelerated path (fixed threshold 128 applied to the input)
returns white–white while the CPU path (Otsu threshold over the denoised
image, here with a denoiser that leaves this image unchanged) returns
black–white: the two strategies are not interchangeable. -/
theorem claim_C5_counterexample :
    gpu_preprocess [[140, 200]] ≠ cpu_preprocess (fun i => i) [[140, 200]] := by decide

set_option maxRecDepth 4000 in
/-- Claim C5, amended: for any denoiser that leaves the image [[140, 200]]
unchanged, the CPU path binarizes it at the Otsu threshold 140 (giving
[[0, 255]]) while the accelerated path binarizes at the fixed threshold
128 (giving [[255, 255]]); the two strategies disagree. -/
theorem claim_C5_amended (denoise : Img → Img)
    (hfix : denoise [[140, 200]] = [[140, 200]]) :
    cpu_preprocess denoise [[140, 200]] ≠ gpu_preprocess [[140, 200]] := by
  unfold cpu_preprocess
  rw [hfix]
  decide

set_option maxRecDepth 4000 in
theorem claim_C5_witness :
    cpu_preprocess (fun i => i) [[140, 200]] ≠ gpu_preprocess [[140, 200]] :=
  claim_C5_amended (fun i => i) rfl

/-- Claim C6, code evaluation at the failing input: on the 3×3 image with
a lone bright centre pixel, the code returns 255 at the centre because the
threshold kernel is passed `input_buf` (the original grayscale image),
while the claimed pipeline — binarization applied to the output of the
denoise step — gives 0 there (the denoised centre is 200/9 = 22 ≤ 128);
the computed denoised buffer is discarded by the code. -/
theorem claim_C6_code_eval :
    pxl (gpu_preprocess [[0, 0, 0], [0, 200, 0], [0, 0, 0]]) 1 1 = 255 ∧
    pxl (thresholdKernel 128 (denoiseKernel [[0, 0, 0], [0, 200, 0], [0, 0, 0]])) 1 1 = 0 ∧
    gpu_preprocess [[0, 0, 0], [0, 200, 0], [0, 0, 0]] ≠
      thresholdKernel 128 (denoiseKernel [[0, 0, 0], [0, 200, 0], [0, 0, 0]]) := by decide

/-- Claim C8: `_correct_text` applies its fixed, ordered list of
substitution rules sequentially — the loop over the corrections dict is the
composition of the four passes, each operating on the output of the
previous one; as a pure function it returns identical output on identical
input. -/
theorem claim_C8_sequential (t : List Char) :
    correct_text t = rule4 (rule3 (rule2 (rule1 t))) := correct_text_fold t

/-- Claim C9: the OCR text correction is idempotent — every replacement
text is itself a fixed point of the rule set, no rule can create a match
for an earlier rule, and rescanning the corrected text changes nothing. -/
theorem claim_C9_idempotent (t : List Char) :
    correct_text (correct_text t) = correct_text t := correct_text_idem t

/-- Claim C10: the endpoint removes its temporary PDF file on every exit
path — success, extraction failure (the re-raised 400), unexpected
exception (the 500), and even when the initial write itself fails (the
file was then never created): after the call the temporary file never
remains. -/
theorem claim_C10_no_leftover_temp (writeOk : Bool) (outcome : BodyOutcome) :
    (parse_pdf_run writeOk outcome).2 = false := by
  cases writeOk <;> cases outcome <;> rfl

/-- Claim C3: for every amount of cents, parsing the Brazilian-format
rendering recovers the amount exactly to two decimal places, and a literal
that is not a valid number after separator conversion fails with
InvalidMonetaryValue — never a default value. -/
theorem claim_C3_money (cents : Nat) :
    MoneyParser_parse (formatBR cents) = Except.ok ((cents : ℚ) / 100) ∧
    (∀ s : List Char, parseDecimal (normalizeSeparators s) = none →
      MoneyParser_parse s = Except.error MoneyError.invalidMonetaryValue) := by
  constructor
  · exact roundtripBR cents
  · intro s h
    unfold MoneyParser_parse
    rw [h]

/-- Claim C2, counterexample: a two-segment input whose first segment has
all-sentinel header fields and zero components; assemble nevertheless
succeeds (the failing segment is omitted), refuting that the call fails
with NotRecognizedError exactly when such a segment exists. -/
theorem claim_C2_counterexample :
    segmentFails exHeaderBad [] = true ∧
    assemble [exHeaderBad, exHeaderGood] [[], [exComponent]] =
      Except.ok [mkPaycheck exHeaderGood [exComponent]] := by
  constructor
  · decide
  · rfl

/-- Claim C2, amended: assemble fails with NotRecognizedError exactly when
the segment list is nonempty and every segment has all-sentinel header
fields and zero components; failing segments are otherwise omitted from
the result, and a Paycheck with zero components and all-sentinel header
fields is never part of a success value. -/
theorem claim_C2_amended (hs : List HeaderFields) (ts : List (List PayComponent)) :
    (assemble hs ts = Except.error AssembleError.notRecognized ↔
      (hs.zip ts ≠ [] ∧ ∀ sg ∈ hs.zip ts, segmentFails sg.1 sg.2 = true)) ∧
    (∀ l, assemble hs ts = Except.ok l → ∀ pc ∈ l,
      ¬(pc.name = NOT_FOUND ∧ pc.registrationId = NOT_FOUND ∧
        pc.referencePeriod = NOT_FOUND ∧ pc.components = [])) :=
  assemble_spec hs ts

/-- Claim C7: every header field produced by extractHeader is the value of
the first candidate pattern that matches — with all earlier candidates
missing — or the explicit NOT_FOUND sentinel when no candidate matches;
the record always carries all three fields and a miss is data, not an
exception. -/
theorem claim_C7_first_match (P : HeaderPatterns) (t : List Char) :
    FirstMatchSpec P.namePats t (extractHeader P t).name ∧
    FirstMatchSpec P.registrationIdPats t (extractHeader P t).registrationId ∧
    FirstMatchSpec P.referencePeriodPats t (extractHeader P t).referencePeriod :=
  ⟨firstMatch_spec _ _, firstMatch_spec _ _, firstMatch_spec _ _⟩

end ParsePdfSpec
